import Mathlib

/-!
Verification of the csvplusplus reference implementation.

Shallow embedding of the CSV++ reference implementation (`src/ri/src/csvpp`)
into Lean 4, together with theorems settling the frozen claims about the
header grammar parser, the value decoder, the quote-aware splitter and the
document orchestrator.

Strings are modelled as `List Char`.  Python exceptions are modelled by the
`Err` enumeration below; a function that can raise returns `Except Err _`.
Recursive functions whose Python originals recurse on substrings or on the
schema tree carry a `Nat` fuel argument (structural, so everything evaluates
by `rfl`/`decide`); the public wrappers supply a budget that strictly
dominates the recursion depth of the Python original, as explained at each
wrapper, so the `fuelExhausted` branch is never taken by them.
-/

set_option maxRecDepth 10000

namespace Csvpp

/-- Exception classes of `models.py`.  Each constructor is the most-derived
Python class raised at the corresponding `raise` site.  `csvppBase` is a bare
`CSVPPError` (the only direct raise of the base class is the empty-document
check in `parser.py`). -/
inductive Err where
  /-- `HeaderParseError` (the spec calls it `HeaderSyntaxError`). -/
  | headerParseError
  /-- `ValueParseError` (the spec calls it `ValueSyntaxError`). -/
  | valueParseError
  /-- `InvalidQuotingError`. -/
  | invalidQuotingError
  /-- `DelimiterConflictError`. -/
  | delimiterConflictError
  /-- A bare `CSVPPError`. -/
  | csvppBase
  /-- Modelled from the spec: the spec's error taxonomy lists a distinct
  `EmptyDocumentError`, but `models.py` defines no such class; this
  constructor exists only so that the spec's claim can be stated and
  compared with what the code actually raises. -/
  | emptyDocumentError
  /-- Modelling artifact: recursion budget exhausted.  Never produced by the
  wrappers, whose budget dominates the recursion depth. -/
  | fuelExhausted
deriving DecidableEq, Repr

/-- The `Field` model of `models.py`: `SimpleField`, `ArrayField` and
`StructField`. -/
inductive Field where
  | SimpleField (name : String)
  | ArrayField (name : String) (delimiter : Char) (element_type : Field)
  | StructField (name : String) (component_delimiter : Char) (components : List Field)
deriving Repr

/-- The `name` attribute shared by all three dataclasses. -/
def Field.name : Field → String
  | .SimpleField n => n
  | .ArrayField n _ _ => n
  | .StructField n _ _ => n

/-- `isinstance(f, SimpleField)`. -/
def Field.isSimple : Field → Bool
  | .SimpleField _ => true
  | _ => false

mutual
/-- Number of nodes of a schema tree; used as the (always sufficient)
recursion budget of the value decoder. -/
def Field.size : Field → Nat
  | .SimpleField _ => 1
  | .ArrayField _ _ et => Field.size et + 1
  | .StructField _ _ comps => Field.sizeList comps + 1
/-- Sum of `Field.size` over a component list. -/
def Field.sizeList : List Field → Nat
  | [] => 0
  | f :: rest => Field.size f + Field.sizeList rest
end

/-- Decoded Python values: `str`, `list`, `dict` (as an insertion-ordered
association list, mirroring Python 3.7+ `dict`) and `None`. -/
inductive Value where
  | str (s : List Char)
  | arr (elems : List Value)
  | record (entries : List (String × Value))
  | null
deriving Repr

/-- Python `d[k] = v` on an insertion-ordered `dict`: if the key is present
its value is updated in place (original position kept), otherwise the pair
is appended at the end. -/
def dictInsert (k : String) (v : Value) : List (String × Value) → List (String × Value)
  | [] => [(k, v)]
  | (k', v') :: rest => if k' = k then (k', v) :: rest else (k', v') :: dictInsert k v rest

/-- Successive `d[k] = v` assignments, as performed by the record-building
loops of `parser.py` and `value_parser.py`. -/
def dictInsertMany (init : List (String × Value)) (pairs : List (String × Value)) :
    List (String × Value) :=
  pairs.foldl (fun d p => dictInsert p.1 p.2 d) init

/-- Python `d[k]` / `d.get(k)` lookup. -/
def dictLookup (k : String) (l : List (String × Value)) : Option Value :=
  (l.find? (fun p => p.1 = k)).map Prod.snd

/-- Number of entries of the dict carrying a given key. -/
def countKey (k : String) (l : List (String × Value)) : Nat :=
  (l.filter (fun p => p.1 = k)).length

/-- Sequential effectful map over `Except`, with the same first-error
semantics as the Python `for` loops it models: apply `f` to each element in
order, stopping at the first error. -/
def mapME {α β : Type} (f : α → Except Err β) : List α → Except Err (List β)
  | [] => .ok []
  | a :: t =>
    match f a with
    | .error e => .error e
    | .ok b =>
      match mapME f t with
      | .error e => .error e
      | .ok bs => .ok (b :: bs)

/-! ## Quote-aware splitting (`value_parser.quote_aware_split`)

The Python function takes a delimiter string; every call site passes a
single-character delimiter (an array or component delimiter from a header),
so the delimiter is modelled as a `Char` and the Python
`s[i:i+len(delimiter)] == delimiter` test becomes a character comparison. -/

/-- Loop of `quote_aware_split`: `current` is the token being accumulated,
`thisQuoted` whether it started with a quote, the last argument the
in-quotes scanner state.  The first clause below is the Python
escaped-quote case (`""` inside a quoted token, consuming two characters);
in the catch-all clause an in-quotes `'"'` therefore cannot be followed by
another `'"'`, exactly as in the Python `else` branch. -/
def qasAux (delim : Char) : List Char → List Char → Bool → Bool →
    List (List Char) × List Bool
  | [], current, thisQuoted, _ => ([current], [thisQuoted])
  | '"' :: '"' :: rest, current, thisQuoted, true =>
    qasAux delim rest (current ++ ['"']) thisQuoted true
  | ch :: rest, current, thisQuoted, inQuotes =>
    if inQuotes then
      if ch = '"' then qasAux delim rest current thisQuoted false
      else qasAux delim rest (current ++ [ch]) thisQuoted true
    else
      if ch = '"' ∧ current = [] then
        qasAux delim rest current true true
      else if ch = delim then
        let (vs, qs) := qasAux delim rest [] false false
        (current :: vs, thisQuoted :: qs)
      else qasAux delim rest (current ++ [ch]) thisQuoted false

/-- `quote_aware_split(s, delimiter) -> (values, was_quoted)`. -/
def quote_aware_split (s : List Char) (delim : Char) : List (List Char) × List Bool :=
  qasAux delim s [] false false

/-! ## Value decoding (`value_parser.parse_value`) -/

/-- One padded token list for the struct loop: the loop of `_parse_struct`
runs over the declared components, pairing component `i` with token `i`
when `i < len(elements)` (`some`) and with `none` otherwise. -/
def padTokens (pairs : List (List Char × Bool)) (n : Nat) :
    List (Option (List Char × Bool)) :=
  pairs.map some ++ List.replicate (n - pairs.length) none

/-- `parse_value(raw, schema, was_quoted)` with explicit fuel.
Mirrors `parse_value`, `_parse_array` and `_parse_struct`; the per-element
loops are expressed with `mapME` (same sequential first-error semantics as
the Python loops), and the struct dict is built by the same sequence of
`result[name] = value` assignments, via `dictInsertMany`. -/
def parse_valueF : Nat → List Char → Field → Bool → Except Err Value
  | 0, _, _, _ => .error .fuelExhausted
  | fuel + 1, raw, schema, wasQuoted =>
    match schema with
    | .SimpleField _ => .ok (.str raw)
    | .ArrayField _ delim elementType =>
      if wasQuoted then .error .invalidQuotingError
      else if raw = [] then .ok (.arr [])
      else
        let (elements, quotedFlags) := quote_aware_split raw delim
        (mapME (fun p =>
            (if p.2 && !elementType.isSimple then .error Err.invalidQuotingError
             else parse_valueF fuel p.1 elementType false : Except Err Value))
            (elements.zip quotedFlags)).map .arr
    | .StructField _ compDelim components =>
      if wasQuoted then .error .invalidQuotingError
      else if components.isEmpty then .ok (.record [])
      else
        let (elements, quotedFlags) := quote_aware_split raw compDelim
        if components.length < elements.length then .error .valueParseError
        else
          (mapME (fun p =>
                (p.2.elim (Except.ok Value.null) (fun cell =>
                   if cell.2 && !p.1.isSimple then .error Err.invalidQuotingError
                   else parse_valueF fuel cell.1 p.1 false) : Except Err Value))
              (components.zip (padTokens (elements.zip quotedFlags)
                components.length))).map
            (fun vs => .record (dictInsertMany [] ((components.map Field.name).zip vs)))

/-- `parse_value(raw, schema, was_quoted)`.  The recursion depth of the
Python function is the nesting depth of the schema, which is at most
`Field.size schema`, so the budget `Field.size schema + 1` never runs out
(`parse_valueF_congr` below makes the irrelevance of any sufficient budget
explicit). -/
def parse_value (raw : List Char) (schema : Field) (wasQuoted : Bool) : Except Err Value :=
  parse_valueF (Field.size schema + 1) raw schema wasQuoted

/-! ## Header parsing (`header_parser.py`) -/

/-- The `field-char` class `[A-Za-z0-9_\-]` of `_NAME_RE`. -/
def isNameChar (c : Char) : Bool :=
  ('A' ≤ c ∧ c ≤ 'Z') ∨ ('a' ≤ c ∧ c ≤ 'z') ∨ ('0' ≤ c ∧ c ≤ '9') ∨ c = '_' ∨ c = '-'

/-- Python `s.find(c)` restricted to the suffix being searched:
index of the first occurrence, if any. -/
def findChar (c : Char) : List Char → Option Nat
  | [] => none
  | x :: rest => if x = c then some 0 else (findChar c rest).map (· + 1)

/-- The closing-parenthesis scan of `_parse_field`: starting with
`depth_count` open parentheses, walk the string incrementing on `'('` and
decrementing on `')'`; returns the number of characters consumed (the
matching `')'` included), or `none` if the string ends first. -/
def scanParen : List Char → Nat → Option Nat
  | _, 0 => some 0
  | [], _ + 1 => none
  | c :: rest, d + 1 =>
    (scanParen rest (if c = '(' then d + 2 else if c = ')' then d else d + 1)).map (· + 1)

/-- Loop of `_bracket_aware_split`, returning the part currently being
accumulated and the parts after it.  The depth is an integer, exactly as in
Python, so that unbalanced closing brackets drive it negative (where the
split point test `depth == 0` fails) instead of clamping at zero. -/
def bracketAwareSplitAux (delim : Char) : List Char → Int → List Char × List (List Char)
  | [], _ => ([], [])
  | ch :: rest, depth =>
    if ch = '(' ∨ ch = '[' then
      let (p, ps) := bracketAwareSplitAux delim rest (depth + 1)
      (ch :: p, ps)
    else if ch = ')' ∨ ch = ']' then
      let (p, ps) := bracketAwareSplitAux delim rest (depth - 1)
      (ch :: p, ps)
    else if depth = 0 ∧ ch = delim then
      let (p, ps) := bracketAwareSplitAux delim rest 0
      ([], p :: ps)
    else
      let (p, ps) := bracketAwareSplitAux delim rest depth
      (ch :: p, ps)

/-- `_bracket_aware_split(s, delimiter)` (single-character delimiter, as at
its only call site). -/
def bracketAwareSplit (s : List Char) (delim : Char) : List (List Char) :=
  let (p, ps) := bracketAwareSplitAux delim s 0
  p :: ps

/-- Name and optional array-bracket part of `_parse_field` (its first two
sections): returns the field name, the resolved array delimiter (if bracket
syntax was present), the unconsumed suffix and the number of characters
consumed. -/
def parseNameAndArray (s : List Char) (depth : Nat) (used : List Char) :
    Except Err (String × Option Char × List Char × Nat) :=
  let nameChars := s.takeWhile isNameChar
  if nameChars.isEmpty then .error .headerParseError
  else
    let name := String.mk nameChars
    match s.drop nameChars.length with
    | '[' :: after =>
      match findChar ']' after with
      | none => .error .headerParseError
      | some idx =>
        let delimStr := after.take idx
        match (if delimStr.isEmpty then
                 if 0 < depth then .error Err.headerParseError else .ok '~'
               else if delimStr.length = 1 then .ok (delimStr.headD ' ')
               else .error Err.headerParseError : Except Err Char) with
        | .error e => .error e
        | .ok arrayDelim =>
          if arrayDelim ∈ used then .error .delimiterConflictError
          else .ok (name, some arrayDelim, after.drop (idx + 1),
                    nameChars.length + 1 + idx + 1)
    | rest1 => .ok (name, none, rest1, nameChars.length)

/-- The struct-body lookahead of `_parse_field` step 3: `some (cd, skip)`
when a struct body follows, where `cd` is the component delimiter (the
default `'^'` when `'('` is immediate) and `skip` the number of characters
consumed before the `'('`. -/
def structHead : List Char → Option (Char × Nat)
  | [] => none
  | c :: rest =>
    if c = '(' then some ('^', 0)
    else
      match rest with
      | c2 :: _ => if c2 = '(' then some (c, 1) else none
      | [] => none

/-- Post-processing of one component in `_parse_component_list`: reject a
component that starts with `'('` (diagnosis of component-delimiter reuse in
a nested struct), require that the recursive parse consumed the whole
component, and classify unconsumed trailing characters — a trailing
delimiter already in scope is a `DelimiterConflictError`, anything else a
`HeaderParseError`. -/
def componentCheck (used : List Char) (raw : List Char)
    (r : Except Err (Field × Nat)) : Except Err Field :=
  if raw.head? = some '(' then .error .delimiterConflictError
  else
    match r with
    | .error e => .error e
    | .ok (f, consumed) =>
      if consumed = raw.length then .ok f
      else
        match (raw.drop consumed).head? with
        | some c =>
          if c ∈ used then .error .delimiterConflictError
          else .error .headerParseError
        | none => .error .headerParseError

/-- `_parse_field(s, pos, depth, used_delimiters)` operating on the suffix
`s[pos:]` (the Python function never looks before `pos`), returning the
parsed field and the number of characters consumed.  The fuel is decremented
only when descending into a component, so a budget exceeding the nesting
depth — which grows by at least three consumed characters per level —
suffices; the wrapper `parse_field` supplies `length + 1`.  The component
loop mirrors `_parse_component_list`: leading-`'('` check, full-consumption
check, and the diagnosis of a trailing delimiter already in scope. -/
def parseFieldFromF : Nat → List Char → Nat → List Char → Except Err (Field × Nat)
  | 0, _, _, _ => .error .fuelExhausted
  | fuel + 1, s, depth, used =>
    match parseNameAndArray s depth used with
    | .error e => .error e
    | .ok (name, arrayDelim?, rest2, pos2) =>
      match structHead rest2 with
      | none =>
        match arrayDelim? with
        | some d => .ok (.ArrayField name d (.SimpleField name), pos2)
        | none => .ok (.SimpleField name, pos2)
      | some (compDelim, skip) =>
        if compDelim ∈ used then .error .delimiterConflictError
        else if arrayDelim? = some compDelim then .error .delimiterConflictError
        else
          let rest4 := rest2.drop (skip + 1)
          match scanParen rest4 1 with
          | none => .error .headerParseError
          | some n =>
            let body := rest4.take (n - 1)
            let innerUsed := used ++ (match arrayDelim? with
              | some a => [compDelim, a]
              | none => [compDelim])
            (mapME (fun raw =>
                componentCheck innerUsed raw
                  (parseFieldFromF fuel raw (depth + 1) innerUsed))
                (bracketAwareSplit body compDelim)).map
              (fun comps =>
                let st := Field.StructField name compDelim comps
                match arrayDelim? with
                | some d => (Field.ArrayField name d st, pos2 + skip + 1 + n)
                | none => (st, pos2 + skip + 1 + n))

/-- `parse_field(header)`: parse at position 0, depth 0, empty delimiter
set, and require full consumption.  Each recursive level of the Python
parser strictly consumes characters before descending, so `length + 1` fuel
always suffices. -/
def parse_field (s : List Char) : Except Err Field :=
  match parseFieldFromF (s.length + 1) s 0 [] with
  | .error e => .error e
  | .ok (f, consumed) => if consumed = s.length then .ok f else .error .headerParseError

/-- Python whitespace as stripped by `str.strip()` (ASCII portion). -/
def isSpaceChar (c : Char) : Bool :=
  c = ' ' ∨ c = '\t' ∨ c = '\n' ∨ c = '\r' ∨ c = '\x0b' ∨ c = '\x0c'

/-- `s.strip()`. -/
def pyStrip (s : List Char) : List Char :=
  ((s.dropWhile isSpaceChar).reverse.dropWhile isSpaceChar).reverse

/-- `parse_header_row(headers)`: strip and parse each header cell. -/
def parse_header_row (headers : List (List Char)) : Except Err (List Field) :=
  mapME (fun h => parse_field (pyStrip h)) headers

/-! ## Document orchestration (`parser.py`) -/

/-- Loop of `_parse_csv_row`: like `qasAux`, but the Python code compares
the single current character (a length-1 string) with the whole field
separator string — `ch == field_sep` — modelled as `[ch] = fieldSep`. -/
def pcrAux (fieldSep : List Char) : List Char → List Char → Bool → Bool →
    List (List Char) × List Bool
  | [], current, wasQuoted, _ => ([current], [wasQuoted])
  | '"' :: '"' :: rest, current, wasQuoted, true =>
    pcrAux fieldSep rest (current ++ ['"']) wasQuoted true
  | ch :: rest, current, wasQuoted, inQuotes =>
    if inQuotes then
      if ch = '"' then pcrAux fieldSep rest current wasQuoted false
      else pcrAux fieldSep rest (current ++ [ch]) wasQuoted true
    else
      if ch = '"' ∧ current = [] then
        pcrAux fieldSep rest current true true
      else if [ch] = fieldSep then
        let (vs, qs) := pcrAux fieldSep rest [] false false
        (current :: vs, wasQuoted :: qs)
      else pcrAux fieldSep rest (current ++ [ch]) wasQuoted false

/-- `_parse_csv_row(line, field_sep) -> (values, was_quoted)`. -/
def parse_csv_row (line : List Char) (fieldSep : List Char) :
    List (List Char) × List Bool :=
  pcrAux fieldSep line [] false false

/-- Loop of `_split_csv_lines`: assemble logical lines, treating quoted
line terminators as content.  A toggling `'"'` is appended to the current
line (unlike the row parser, which strips it); `\r\n`, `\r` and `\n`
outside quotes all terminate a line; a nonempty final fragment counts as a
line. -/
def sclAux : List Char → Bool → List Char → List (List Char)
  | [], _, current => if current.isEmpty then [] else [current]
  | '"' :: '"' :: rest, true, current => sclAux rest true (current ++ ['"'])
  | '\r' :: '\n' :: rest, false, current => current :: sclAux rest false []
  | ch :: rest, inQuotes, current =>
    if ch = '"' then sclAux rest (!inQuotes) (current ++ ['"'])
    else if ch = '\r' ∧ inQuotes = false then current :: sclAux rest false []
    else if ch = '\n' ∧ inQuotes = false then current :: sclAux rest false []
    else sclAux rest inQuotes (current ++ [ch])

/-- `_split_csv_lines(text)`. -/
def split_csv_lines (text : List Char) : List (List Char) :=
  sclAux text false []

/-- The per-row decoding loop of `parse` (parser.py lines 61–72): for each
column schema in order, take the cell at that column index (an empty
unquoted cell when the row is short) and assign
`record[schema.name] = parse_value(...)`. -/
def decodeRowF (schemas : List Field) (cells : List (List Char × Bool))
    (record : List (String × Value)) : Except Err (List (String × Value)) :=
  match schemas with
  | [] => .ok record
  | schema :: rest =>
    let cell := cells.headD ([], false)
    match parse_value cell.1 schema cell.2 with
    | .error e => .error e
    | .ok v => decodeRowF rest (cells.drop 1) (dictInsert (Field.name schema) v record)

/-- The data-row phase of `parse`: skip blank lines (`line.strip() == ""`),
split each remaining line with `_parse_csv_row`, skip empty rows
(`len(raw_row) == 0`, unreachable but present in the code), decode, and
collect records in row order. -/
def parseRows (schemas : List Field) (lines : List (List Char))
    (fieldSep : List Char) : Except Err (List (List (String × Value))) :=
  match lines with
  | [] => .ok []
  | line :: rest =>
    if (pyStrip line).isEmpty then parseRows schemas rest fieldSep
    else
      let (vals, flags) := parse_csv_row line fieldSep
      if vals.isEmpty then parseRows schemas rest fieldSep
      else
        match decodeRowF schemas (vals.zip flags) [] with
        | .error e => .error e
        | .ok record =>
          match parseRows schemas rest fieldSep with
          | .error e => .error e
          | .ok records => .ok (record :: records)

/-- Cells padded for the column loop of `parse`: column indices beyond the
row's cells read as an empty, unquoted cell. -/
def padCells (cells : List (List Char × Bool)) (n : Nat) : List (List Char × Bool) :=
  cells ++ List.replicate (n - cells.length) ([], false)

/-- `parse(text, field_sep)`.  The Python code raises a bare `CSVPPError`
when `next(reader)` finds no header row, which happens exactly when the
text has no lines.  The header row is extracted here with the same RFC 4180
row parser the code uses for data rows (`_parse_csv_row`); the Python code
uses `csv.reader` for this one row, which agrees on single-character
separators. -/
def parse (text : List Char) (fieldSep : List Char) :
    Except Err (List (List (String × Value))) :=
  match split_csv_lines text with
  | [] => .error .csvppBase
  | headerLine :: dataLines =>
    match parse_header_row (parse_csv_row headerLine fieldSep).1 with
    | .error e => .error e
    | .ok schemas => parseRows schemas dataLines fieldSep

/-! ## Specification-side predicates used to state the claims -/

/-- Bounded check of the delimiter-scoping discipline the spec demands of a
schema: along every path from the root, each array or component delimiter
is distinct from all delimiters already in scope.  The first argument is a
depth budget; at budget `0` the check is vacuously true, so the discipline
holds of a schema iff the check succeeds at every budget. -/
def pathsOkF : Nat → List Char → Field → Bool
  | 0, _, _ => true
  | g + 1, used, f =>
    match f with
    | .SimpleField _ => true
    | .ArrayField _ d et =>
      if d ∈ used then false else pathsOkF g (d :: used) et
    | .StructField _ cd comps =>
      if cd ∈ used then false else comps.all (pathsOkF g (cd :: used))

/-- A token list of an array cell "reaches a quoted token": some entry is
quoted, and every entry before it decodes successfully against the element
schema — so the decoding loop of `_parse_array` reaches the quoted entry
without an earlier error. -/
inductive ReachesQuoted (et : Field) : List (List Char × Bool) → Prop where
  | here (e : List Char) (rest : List (List Char × Bool)) :
      ReachesQuoted et ((e, true) :: rest)
  | there (e : List Char) (q : Bool) (rest : List (List Char × Bool)) (v : Value)
      (hok : parse_value e et q = .ok v) (h : ReachesQuoted et rest) :
      ReachesQuoted et ((e, q) :: rest)

/-- Struct analogue of `ReachesQuoted`: walking declared components and
tokens in lockstep, some token is quoted while its component schema is
non-leaf, and every earlier token decodes successfully. -/
inductive ReachesQuotedS : List Field → List (List Char × Bool) → Prop where
  | here (c : Field) (comps : List Field) (e : List Char)
      (rest : List (List Char × Bool)) (hns : c.isSimple = false) :
      ReachesQuotedS (c :: comps) ((e, true) :: rest)
  | there (c : Field) (comps : List Field) (e : List Char) (q : Bool)
      (rest : List (List Char × Bool)) (v : Value)
      (hok : parse_value e c q = .ok v) (h : ReachesQuotedS comps rest) :
      ReachesQuotedS (c :: comps) ((e, q) :: rest)

/-! # Theorems

Generic helper lemmas. -/

theorem mapME_congr {α β : Type} {f g : α → Except Err β} :
    ∀ {l : List α}, (∀ x ∈ l, f x = g x) → mapME f l = mapME g l := by
  intro l
  induction l with
  | nil => intro _; rfl
  | cons a t ih =>
    intro h
    simp only [mapME]
    rw [h a (List.mem_cons_self a t), ih (fun x hx => h x (List.mem_cons_of_mem _ hx))]

theorem mapME_ok_mem {α β : Type} {f : α → Except Err β} :
    ∀ {l : List α} {ys : List β}, mapME f l = .ok ys → ∀ y ∈ ys, ∃ x ∈ l, f x = .ok y := by
  intro l
  induction l with
  | nil =>
    intro ys h y hy
    simp only [mapME] at h
    cases h
    cases hy
  | cons a t ih =>
    intro ys h y hy
    simp only [mapME] at h
    cases hfa : f a with
    | error e => rw [hfa] at h; cases h
    | ok b =>
      rw [hfa] at h
      cases hmt : mapME f t with
      | error e => rw [hmt] at h; cases h
      | ok bs =>
        rw [hmt] at h
        cases h
        rcases List.mem_cons.mp hy with rfl | hmem
        · exact ⟨a, List.mem_cons_self a t, hfa⟩
        · obtain ⟨x, hx, hfx⟩ := ih hmt y hmem
          exact ⟨x, List.mem_cons_of_mem _ hx, hfx⟩

theorem except_map_ok {α β : Type} (f : α → β) (a : α) :
    Except.map f (Except.ok a : Except Err α) = .ok (f a) := rfl

theorem except_map_error {α β : Type} (f : α → β) (e : Err) :
    Except.map f (Except.error e : Except Err α) = .error e := rfl

theorem Field.size_pos (f : Field) : 0 < f.size := by
  cases f <;> simp [Field.size]

theorem Field.size_le_sizeList {f : Field} :
    ∀ {l : List Field}, f ∈ l → f.size ≤ Field.sizeList l := by
  intro l
  induction l with
  | nil => intro h; cases h
  | cons g t ih =>
    intro h
    rcases List.mem_cons.mp h with rfl | hmem
    · simp [Field.sizeList]
    · have := ih hmem
      simp [Field.sizeList]; omega

/-- Fuel irrelevance for the value decoder: any budget at least the size of
the schema yields the same result, so `parse_value`'s budget choice is
immaterial. -/
theorem parse_valueF_congr :
    ∀ (f₁ f₂ : Nat) (raw : List Char) (schema : Field) (wq : Bool),
      Field.size schema ≤ f₁ → Field.size schema ≤ f₂ →
      parse_valueF f₁ raw schema wq = parse_valueF f₂ raw schema wq := by
  intro f₁
  induction f₁ with
  | zero =>
    intro f₂ raw schema wq h1 _
    have := Field.size_pos schema; omega
  | succ f₁' ih =>
    intro f₂ raw schema wq h1 h2
    cases f₂ with
    | zero => have := Field.size_pos schema; omega
    | succ f₂' =>
      cases schema with
      | SimpleField nm => rfl
      | ArrayField nm d et =>
        have het1 : Field.size et ≤ f₁' := by simp [Field.size] at h1; omega
        have het2 : Field.size et ≤ f₂' := by simp [Field.size] at h2; omega
        simp only [parse_valueF]
        have hmap :
            mapME (fun p => (if p.2 && !et.isSimple then .error Err.invalidQuotingError
                 else parse_valueF f₁' p.1 et false : Except Err Value))
              ((quote_aware_split raw d).1.zip (quote_aware_split raw d).2) =
            mapME (fun p => (if p.2 && !et.isSimple then .error Err.invalidQuotingError
                 else parse_valueF f₂' p.1 et false : Except Err Value))
              ((quote_aware_split raw d).1.zip (quote_aware_split raw d).2) := by
          apply mapME_congr
          intro p _
          by_cases hq : (p.2 && !et.isSimple) = true
          · simp [hq]
          · simp [hq, ih f₂' p.1 et false het1 het2]
        rw [hmap]
      | StructField nm cd comps =>
        have hcl1 : Field.sizeList comps ≤ f₁' := by simp [Field.size] at h1; omega
        have hcl2 : Field.sizeList comps ≤ f₂' := by simp [Field.size] at h2; omega
        simp only [parse_valueF]
        have hmap :
            mapME (fun p =>
                (p.2.elim (Except.ok Value.null) (fun cell =>
                   if cell.2 && !p.1.isSimple then .error Err.invalidQuotingError
                   else parse_valueF f₁' cell.1 p.1 false) : Except Err Value))
              (comps.zip (padTokens ((quote_aware_split raw cd).1.zip
                (quote_aware_split raw cd).2) comps.length)) =
            mapME (fun p =>
                (p.2.elim (Except.ok Value.null) (fun cell =>
                   if cell.2 && !p.1.isSimple then .error Err.invalidQuotingError
                   else parse_valueF f₂' cell.1 p.1 false) : Except Err Value))
              (comps.zip (padTokens ((quote_aware_split raw cd).1.zip
                (quote_aware_split raw cd).2) comps.length)) := by
          apply mapME_congr
          intro p hp
          have hmem : p.1 ∈ comps := (List.of_mem_zip hp).1
          have hsz : Field.size p.1 ≤ Field.sizeList comps := Field.size_le_sizeList hmem
          cases hp2 : p.2 with
          | none => simp only [hp2, Option.elim_none]
          | some cell =>
            simp only [hp2, Option.elim_some]
            by_cases hq : (cell.2 && !p.1.isSimple) = true
            · rw [if_pos hq, if_pos hq]
            · rw [if_neg hq, if_neg hq, ih f₂' cell.1 p.1 false (by omega) (by omega)]
        rw [hmap]

/-! ## Basic shapes of the value decoder -/

/-- One-step unfolding of the decoder on an array schema. -/
theorem parse_valueF_succ_array (fuel : Nat) (raw : List Char) (nm : String)
    (d : Char) (et : Field) (wq : Bool) :
    parse_valueF (fuel + 1) raw (.ArrayField nm d et) wq =
      if wq then .error .invalidQuotingError
      else if raw = [] then .ok (.arr [])
      else
        (mapME (fun p =>
            (if p.2 && !et.isSimple then .error Err.invalidQuotingError
             else parse_valueF fuel p.1 et false : Except Err Value))
            ((quote_aware_split raw d).1.zip (quote_aware_split raw d).2)).map .arr := rfl

/-- One-step unfolding of the decoder on a struct schema. -/
theorem parse_valueF_succ_struct (fuel : Nat) (raw : List Char) (nm : String)
    (cd : Char) (comps : List Field) (wq : Bool) :
    parse_valueF (fuel + 1) raw (.StructField nm cd comps) wq =
      if wq then .error .invalidQuotingError
      else if comps.isEmpty then .ok (.record [])
      else if comps.length < (quote_aware_split raw cd).1.length then
        .error .valueParseError
      else
        (mapME (fun p =>
            (p.2.elim (Except.ok Value.null) (fun cell =>
               if cell.2 && !p.1.isSimple then .error Err.invalidQuotingError
               else parse_valueF fuel cell.1 p.1 false) : Except Err Value))
            (comps.zip (padTokens ((quote_aware_split raw cd).1.zip
              (quote_aware_split raw cd).2) comps.length))).map
          (fun vs => .record (dictInsertMany [] ((comps.map Field.name).zip vs))) := rfl

theorem parse_value_simple (raw : List Char) (nm : String) (wq : Bool) :
    parse_value raw (.SimpleField nm) wq = .ok (.str raw) := rfl

theorem parse_value_quoted_array (raw : List Char) (nm : String) (d : Char) (et : Field) :
    parse_value raw (.ArrayField nm d et) true = .error .invalidQuotingError := rfl

theorem parse_value_quoted_struct (raw : List Char) (nm : String) (cd : Char)
    (comps : List Field) :
    parse_value raw (.StructField nm cd comps) true = .error .invalidQuotingError := rfl

/-- The inline quoted-element check of `_parse_array` agrees with calling
the decoder with the token's own quoted flag. -/
theorem array_elem_closure_eq (et : Field) (p : List Char × Bool) :
    (if p.2 && !et.isSimple then .error Err.invalidQuotingError
     else parse_valueF (Field.size et + 1) p.1 et false : Except Err Value) =
      parse_value p.1 et p.2 := by
  obtain ⟨e, q⟩ := p
  cases q with
  | false => rfl
  | true =>
    cases et with
    | SimpleField nm => rfl
    | ArrayField nm d et' => exact parse_value_quoted_array e nm d et'
    | StructField nm cd comps => exact parse_value_quoted_struct e nm cd comps

/-- Array decoding on a nonempty raw value: split, then decode each token
with its own quoted flag. -/
theorem parse_value_array_eq (nm : String) (d : Char) (et : Field) (raw : List Char)
    (h : raw ≠ []) :
    parse_value raw (.ArrayField nm d et) false =
      (mapME (fun p => parse_value p.1 et p.2)
          ((quote_aware_split raw d).1.zip (quote_aware_split raw d).2)).map .arr := by
  show parse_valueF (Field.size et + 1 + 1) raw (.ArrayField nm d et) false = _
  rw [parse_valueF_succ_array]
  rw [if_neg (by simp), if_neg h]
  rw [mapME_congr (fun p _ => array_elem_closure_eq et p)]

/-! ## Claim C3 — array decoding -/

/-- C3: for every `ArrayField` schema and unquoted raw cell, empty raw
decodes to the empty list; otherwise the result is the quote-aware split of
the raw value on the array delimiter, each token decoded against the
element schema with its own quoted flag.  Concretely, `tags[|]` on
`"urgent||priority"` preserves the empty middle element, and a quoted token
may contain the delimiter literally. -/
theorem c3_array_decoding :
    (∀ (nm : String) (d : Char) (et : Field),
      parse_value [] (.ArrayField nm d et) false = .ok (.arr [])) ∧
    (∀ (nm : String) (d : Char) (et : Field) (raw : List Char), raw ≠ [] →
      parse_value raw (.ArrayField nm d et) false =
        (mapME (fun p => parse_value p.1 et p.2)
            ((quote_aware_split raw d).1.zip (quote_aware_split raw d).2)).map .arr) ∧
    parse_value "urgent||priority".toList (.ArrayField "tags" '|' (.SimpleField "tags"))
        false =
      .ok (.arr [.str "urgent".toList, .str [], .str "priority".toList]) ∧
    parse_value "First note|\"Second note with | pipe\"|Third note".toList
        (.ArrayField "notes" '|' (.SimpleField "notes")) false =
      .ok (.arr [.str "First note".toList, .str "Second note with | pipe".toList,
                 .str "Third note".toList]) := by
  refine ⟨fun nm d et => rfl, parse_value_array_eq, rfl, rfl⟩

theorem c3_array_decoding_witness :
    parse_value ['a', '|', 'b'] (.ArrayField "t" '|' (.SimpleField "t")) false =
      (mapME (fun p => parse_value p.1 (.SimpleField "t") p.2)
          ((quote_aware_split ['a', '|', 'b'] '|').1.zip
            (quote_aware_split ['a', '|', 'b'] '|').2)).map .arr :=
  c3_array_decoding.2.1 "t" '|' (.SimpleField "t") ['a', '|', 'b'] (by decide)

/-! ## Claim C2 — quoting of non-leaf values -/

theorem padTokens_cons (p : List Char × Bool) (pairs : List (List Char × Bool)) (n : Nat) :
    padTokens (p :: pairs) (n + 1) = some p :: padTokens pairs n := by
  simp [padTokens, Nat.succ_sub_succ]

/-- A successfully decoded token passes the inline quoted-component check of
`_parse_struct` and decodes to the same value there. -/
theorem struct_elem_closure_ok (c : Field) (e : List Char) (q : Bool) (v : Value)
    (fuel : Nat) (hfuel : Field.size c ≤ fuel) (hok : parse_value e c q = .ok v) :
    (if q && !c.isSimple then .error Err.invalidQuotingError
     else parse_valueF fuel e c false : Except Err Value) = .ok v := by
  cases q with
  | false =>
    simp only [Bool.false_and, Bool.false_eq_true, if_false]
    rw [parse_valueF_congr fuel (Field.size c + 1) e c false hfuel (by omega)]
    exact hok
  | true =>
    cases c with
    | SimpleField nm =>
      have hv : (Except.ok (Value.str e) : Except Err Value) = .ok v := hok
      cases hv
      cases fuel with
      | zero => have := Field.size_pos (Field.SimpleField nm); omega
      | succ f' => rfl
    | ArrayField nm d et' => rw [parse_value_quoted_array] at hok; cases hok
    | StructField nm cd cs => rw [parse_value_quoted_struct] at hok; cases hok

/-- If the token list of an array cell reaches a quoted token and the
element schema is non-leaf, the element loop of `_parse_array` fails with
`InvalidQuotingError`. -/
theorem mapME_reaches_quoted (et : Field) (hns : et.isSimple = false) (fuel : Nat)
    (hfuel : Field.size et ≤ fuel) :
    ∀ {pairs : List (List Char × Bool)}, ReachesQuoted et pairs →
      mapME (fun p =>
        (if p.2 && !et.isSimple then .error Err.invalidQuotingError
         else parse_valueF fuel p.1 et false : Except Err Value)) pairs =
      .error .invalidQuotingError := by
  intro pairs h
  induction h with
  | here e rest => simp [mapME, hns]
  | there e q rest v hok hrest ih =>
    simp only [mapME]
    cases q with
    | true =>
      exfalso
      cases et with
      | SimpleField nm => simp [Field.isSimple] at hns
      | ArrayField nm d et' => rw [parse_value_quoted_array] at hok; cases hok
      | StructField nm cd comps => rw [parse_value_quoted_struct] at hok; cases hok
    | false =>
      have hpv : parse_valueF fuel e et false = .ok v := by
        rw [parse_valueF_congr fuel (Field.size et + 1) e et false hfuel (by omega)]
        exact hok
      simp only [Bool.false_and, Bool.false_eq_true, if_false, hpv, ih]

/-- If the component/token walk of a struct cell reaches a quoted token
whose component schema is non-leaf, the component loop of `_parse_struct`
fails with `InvalidQuotingError`. -/
theorem mapME_reaches_quoted_struct (fuel : Nat) :
    ∀ {comps : List Field} {pairs : List (List Char × Bool)},
      ReachesQuotedS comps pairs → Field.sizeList comps ≤ fuel →
      mapME (fun (p : Field × Option (List Char × Bool)) =>
        (p.2.elim (Except.ok Value.null) (fun cell =>
           if cell.2 && !p.1.isSimple then .error Err.invalidQuotingError
           else parse_valueF fuel cell.1 p.1 false) : Except Err Value))
        (comps.zip (padTokens pairs comps.length)) =
      .error .invalidQuotingError := by
  intro comps pairs h
  induction h with
  | here c comps' e rest hns =>
    intro _
    rw [List.length_cons, padTokens_cons]
    simp [mapME, hns]
  | there c comps' e q rest v hok hrest ih =>
    intro hfuel
    have hszc : Field.size c ≤ fuel := by
      simp only [Field.sizeList] at hfuel; omega
    have hfuel' : Field.sizeList comps' ≤ fuel := by
      have := Field.size_pos c
      simp only [Field.sizeList] at hfuel; omega
    rw [List.length_cons, padTokens_cons]
    simp only [List.zip_cons_cons, mapME, Option.elim_some]
    rw [struct_elem_closure_ok c e q v fuel hszc hok]
    have ih' := ih hfuel'
    simp only [List.zip] at ih'
    simp only [ih']

theorem ReachesQuotedS_ne_nil {comps : List Field} {pairs : List (List Char × Bool)}
    (h : ReachesQuotedS comps pairs) : comps ≠ [] := by
  cases h <;> simp

/-- C2 counterexample to the unqualified claim: with schema
`xs[~]^(a)` (array of one-component structs) and cell `p^q~"r"`, the second
token `"r"` arrives quoted with a non-leaf (struct) schema, yet decoding
fails with `ValueParseError` — the first token's overflow error preempts
the quoting error. -/
theorem c2_counterexample :
    parse_value "p^q~\"r\"".toList
        (.ArrayField "xs" '~' (.StructField "xs" '^' [.SimpleField "a"])) false =
      .error .valueParseError ∧
    (quote_aware_split "p^q~\"r\"".toList '~').2 = [false, true] ∧
    (Field.StructField "xs" '^' [.SimpleField "a"]).isSimple = false ∧
    Err.valueParseError ≠ Err.invalidQuotingError :=
  ⟨rfl, rfl, rfl, by decide⟩

/-- C2 (amended): a quoted value meeting a non-`Scalar` schema fails with
`InvalidQuotingError`: unconditionally for the cell itself (array or struct
schema with `wasQuoted` true), and for a nested quoted token provided the
decoding loop reaches it, i.e. every earlier sibling token decodes without
error (otherwise decoding still fails, but with the earlier token's error);
a quoted value against a `Scalar` schema is accepted unchanged. -/
theorem c2_invalid_quoting :
    (∀ (raw : List Char) (nm : String) (d : Char) (et : Field),
      parse_value raw (.ArrayField nm d et) true = .error .invalidQuotingError) ∧
    (∀ (raw : List Char) (nm : String) (cd : Char) (comps : List Field),
      parse_value raw (.StructField nm cd comps) true = .error .invalidQuotingError) ∧
    (∀ (raw : List Char) (nm : String) (wq : Bool),
      parse_value raw (.SimpleField nm) wq = .ok (.str raw)) ∧
    (∀ (nm : String) (d : Char) (et : Field) (raw : List Char),
      et.isSimple = false → raw ≠ [] →
      ReachesQuoted et
        ((quote_aware_split raw d).1.zip (quote_aware_split raw d).2) →
      parse_value raw (.ArrayField nm d et) false = .error .invalidQuotingError) ∧
    (∀ (nm : String) (cd : Char) (comps : List Field) (raw : List Char),
      (quote_aware_split raw cd).1.length ≤ comps.length →
      ReachesQuotedS comps
        ((quote_aware_split raw cd).1.zip (quote_aware_split raw cd).2) →
      parse_value raw (.StructField nm cd comps) false = .error .invalidQuotingError) := by
  refine ⟨fun raw nm d et => rfl, fun raw nm cd comps => rfl, fun raw nm wq => rfl, ?_, ?_⟩
  · intro nm d et raw hns hraw hreach
    show parse_valueF (Field.size et + 1 + 1) raw (.ArrayField nm d et) false = _
    rw [parse_valueF_succ_array, if_neg (by simp), if_neg hraw]
    rw [mapME_reaches_quoted et hns (Field.size et + 1) (by omega) hreach]
    rfl
  · intro nm cd comps raw hlen hreach
    have hne : comps ≠ [] := ReachesQuotedS_ne_nil hreach
    have hemp : comps.isEmpty = false := by
      cases comps with
      | nil => exact absurd rfl hne
      | cons c t => rfl
    show parse_valueF (Field.sizeList comps + 1 + 1) raw (.StructField nm cd comps) false = _
    rw [parse_valueF_succ_struct, if_neg (by simp), if_neg (by simp [hemp]),
      if_neg (by omega)]
    rw [mapME_reaches_quoted_struct (Field.sizeList comps + 1) hreach (by omega)]
    rfl

theorem c2_invalid_quoting_witness :
    parse_value "\"x\"".toList
        (.ArrayField "xs" '~' (.StructField "xs" '^' [.SimpleField "a"])) false =
      .error .invalidQuotingError :=
  c2_invalid_quoting.2.2.2.1 "xs" '~' (.StructField "xs" '^' [.SimpleField "a"])
    "\"x\"".toList rfl (by decide) (ReachesQuoted.here ['x'] [])

/-! ## Claim C5 — struct overflow -/

/-- C5 (amended): a struct with at least one declared component rejects a
raw value that splits into more tokens than there are components. -/
theorem c5_struct_overflow :
    ∀ (nm : String) (cd : Char) (comps : List Field) (raw : List Char),
      comps ≠ [] → comps.length < (quote_aware_split raw cd).1.length →
      parse_value raw (.StructField nm cd comps) false = .error .valueParseError := by
  intro nm cd comps raw hne hover
  show parse_valueF (Field.sizeList comps + 1 + 1) raw (.StructField nm cd comps) false = _
  rw [parse_valueF_succ_struct]
  have hemp : comps.isEmpty = false := by
    cases comps with
    | nil => exact absurd rfl hne
    | cons c t => rfl
  rw [if_neg (by simp), if_neg (by simp [hemp]), if_pos hover]

/-- C5 counterexample to the unqualified claim: a zero-component struct
accepts any raw value (returning the empty mapping) even though the split
produces strictly more tokens (here one) than declared components (zero). -/
theorem c5_counterexample :
    parse_value ['x'] (.StructField "s" '^' []) false = .ok (.record []) ∧
    (0 : Nat) < (quote_aware_split ['x'] '^').1.length := ⟨rfl, by decide⟩

theorem c5_struct_overflow_witness :
    parse_value ['1', '^', '2'] (.StructField "s" '^' [.SimpleField "a"]) false =
      .error .valueParseError :=
  c5_struct_overflow "s" '^' [.SimpleField "a"] ['1', '^', '2'] (by simp) (by decide)

/-! ## Claim C4 — struct decoding with missing trailing tokens -/

theorem mapME_ok_length {α β : Type} {f : α → Except Err β} :
    ∀ {l : List α} {ys : List β}, mapME f l = .ok ys → ys.length = l.length := by
  intro l
  induction l with
  | nil => intro ys h; simp only [mapME] at h; cases h; rfl
  | cons a t ih =>
    intro ys h
    simp only [mapME] at h
    cases hfa : f a with
    | error e => rw [hfa] at h; cases h
    | ok b =>
      rw [hfa] at h
      cases hmt : mapME f t with
      | error e => rw [hmt] at h; cases h
      | ok bs => rw [hmt] at h; cases h; simp [ih hmt]

theorem dictInsert_fresh (k : String) (v : Value) :
    ∀ {l : List (String × Value)}, k ∉ l.map Prod.fst → dictInsert k v l = l ++ [(k, v)] := by
  intro l
  induction l with
  | nil => intro _; rfl
  | cons p t ih =>
    intro h
    simp only [List.map_cons, List.mem_cons] at h
    push_neg at h
    simp only [dictInsert, if_neg (Ne.symm h.1)]
    rw [ih h.2]
    rfl

/-- Assigning a sequence of pairs with pairwise-distinct keys, all fresh for
the accumulator, appends them in order. -/
theorem dictInsertMany_nodup :
    ∀ (ps acc : List (String × Value)), (ps.map Prod.fst).Nodup →
      (∀ k ∈ ps.map Prod.fst, k ∉ acc.map Prod.fst) →
      dictInsertMany acc ps = acc ++ ps := by
  intro ps
  induction ps with
  | nil => intro acc _ _; simp [dictInsertMany]
  | cons p pt ih =>
    intro acc hnd hfresh
    obtain ⟨k, v⟩ := p
    simp only [List.map_cons, List.nodup_cons] at hnd
    have hstep : dictInsertMany acc ((k, v) :: pt) = dictInsertMany (dictInsert k v acc) pt := rfl
    rw [hstep, dictInsert_fresh k v (hfresh k (by simp))]
    rw [ih (acc ++ [(k, v)]) hnd.2 ?fresh]
    · simp
    case fresh =>
      intro k' hk'
      simp only [List.map_append, List.mem_append, List.map_cons, List.map_nil]
      push_neg
      constructor
      · exact hfresh k' (by simp [hk'])
      · intro hc
        simp only [List.mem_singleton] at hc
        exact absurd (hc ▸ hk') hnd.1

/-- The component loop applied to components beyond the available tokens
binds `Null` to each. -/
theorem struct_mapME_all_none (fuel : Nat) :
    ∀ (comps : List Field),
      mapME (fun (p : Field × Option (List Char × Bool)) =>
        (p.2.elim (Except.ok Value.null) (fun cell =>
           if cell.2 && !p.1.isSimple then .error Err.invalidQuotingError
           else parse_valueF fuel cell.1 p.1 false) : Except Err Value))
        (comps.zip (List.replicate comps.length none)) =
      .ok (List.replicate comps.length Value.null) := by
  intro comps
  induction comps with
  | nil => rfl
  | cons c ct ih =>
    simp only [List.length_cons, List.replicate_succ, List.zip_cons_cons, mapME,
      Option.elim_none]
    simp only [List.zip] at ih
    simp only [ih]

/-- The component loop of `_parse_struct` on `k ≤ n` tokens: each token
decodes with its own flag against its component, each missing trailing
component binds `Null`. -/
theorem struct_mapME_ok (fuel : Nat) :
    ∀ (comps : List Field) (pairs : List (List Char × Bool)) (vs : List Value),
      Field.sizeList comps ≤ fuel → pairs.length ≤ comps.length →
      mapME (fun p => parse_value p.1.1 p.2 p.1.2) (pairs.zip comps) = .ok vs →
      mapME (fun (p : Field × Option (List Char × Bool)) =>
        (p.2.elim (Except.ok Value.null) (fun cell =>
           if cell.2 && !p.1.isSimple then .error Err.invalidQuotingError
           else parse_valueF fuel cell.1 p.1 false) : Except Err Value))
        (comps.zip (padTokens pairs comps.length)) =
      .ok (vs ++ List.replicate (comps.length - pairs.length) Value.null) := by
  intro comps
  induction comps with
  | nil =>
    intro pairs vs _ hlen hmap
    have hp : pairs = [] := List.length_eq_zero.mp (Nat.le_zero.mp hlen)
    subst hp
    simp only [mapME] at hmap
    cases hmap
    rfl
  | cons c ct ih =>
    intro pairs vs hfuel hlen hmap
    have hszc : Field.size c ≤ fuel := by
      simp only [Field.sizeList] at hfuel; omega
    have hfuel' : Field.sizeList ct ≤ fuel := by
      have := Field.size_pos c
      simp only [Field.sizeList] at hfuel; omega
    cases pairs with
    | nil =>
      simp only [mapME] at hmap
      cases hmap
      have hpad : padTokens [] (c :: ct).length =
          List.replicate (c :: ct).length none := by
        simp [padTokens]
      rw [hpad, struct_mapME_all_none fuel (c :: ct)]
      simp
    | cons p pt =>
      obtain ⟨e, q⟩ := p
      simp only [List.zip_cons_cons, mapME] at hmap
      cases hok : parse_value e c q with
      | error err => rw [hok] at hmap; cases hmap
      | ok v =>
        rw [hok] at hmap
        cases hmt : mapME (fun p => parse_value p.1.1 p.2 p.1.2)
            (List.zipWith Prod.mk pt ct) with
        | error err => rw [hmt] at hmap; cases hmap
        | ok vt =>
          rw [hmt] at hmap
          cases hmap
          simp only [List.length_cons] at hlen
          rw [List.length_cons, padTokens_cons]
          simp only [List.zip_cons_cons, mapME, Option.elim_some]
          rw [struct_elem_closure_ok c e q v fuel hszc hok]
          have ihr := ih pt vt hfuel' (by omega) (by simpa [List.zip] using hmt)
          simp only [List.zip] at ihr
          simp only [ihr]
          simp [Nat.succ_sub_succ]

/-- C4 counterexample to the unqualified claim: a struct whose two declared
components share the name `a` decodes `1^2` to a single-entry mapping,
bound to the second token — component 0 is not bound to the decoding of
token 0. -/
theorem c4_counterexample :
    parse_value ['1', '^', '2']
        (.StructField "s" '^' [.SimpleField "a", .SimpleField "a"]) false =
      .ok (.record [("a", .str ['2'])]) ∧
    dictLookup "a" [("a", .str ['2'])] = some (.str ['2']) ∧
    Value.str ['2'] ≠ Value.str ['1'] := by
  refine ⟨rfl, rfl, ?_⟩
  simp

/-- C4 (amended): for a struct whose declared component names are distinct,
an unquoted raw value whose quote-aware split yields at most as many tokens
as components decodes to the mapping that binds, in declaration order,
component `i` to the decoding of token `i` (with its own quoted flag) while
it exists and to `Null` afterwards. -/
theorem c4_struct_decoding :
    (∀ (nm : String) (cd : Char) (comps : List Field) (raw : List Char) (vs : List Value),
      comps ≠ [] → (comps.map Field.name).Nodup →
      (quote_aware_split raw cd).1.length ≤ comps.length →
      ((quote_aware_split raw cd).1.zip (quote_aware_split raw cd).2).length =
        (quote_aware_split raw cd).1.length →
      mapME (fun p => parse_value p.1.1 p.2 p.1.2)
        (((quote_aware_split raw cd).1.zip (quote_aware_split raw cd).2).zip comps) =
        .ok vs →
      parse_value raw (.StructField nm cd comps) false =
        .ok (.record ((comps.map Field.name).zip
          (vs ++ List.replicate
            (comps.length - (quote_aware_split raw cd).1.length) Value.null)))) ∧
    parse_value "34.05^-118.24".toList
        (.StructField "geo" '^' [.SimpleField "lat", .SimpleField "lon"]) false =
      .ok (.record [("lat", .str "34.05".toList), ("lon", .str "-118.24".toList)]) ∧
    parse_value "34.05".toList
        (.StructField "geo" '^' [.SimpleField "lat", .SimpleField "lon"]) false =
      .ok (.record [("lat", .str "34.05".toList), ("lon", Value.null)]) := by
  refine ⟨?_, rfl, rfl⟩
  intro nm cd comps raw vs hne hnd hlen hziplen hmap
  have hemp : comps.isEmpty = false := by
    cases comps with
    | nil => exact absurd rfl hne
    | cons c t => rfl
  show parse_valueF (Field.sizeList comps + 1 + 1) raw (.StructField nm cd comps) false = _
  rw [parse_valueF_succ_struct, if_neg (by simp), if_neg (by simp [hemp]),
    if_neg (by omega)]
  have hstep := struct_mapME_ok (Field.sizeList comps + 1) comps
    ((quote_aware_split raw cd).1.zip (quote_aware_split raw cd).2) vs
    (by omega) (by rw [hziplen]; exact hlen) hmap
  rw [hziplen] at hstep
  simp only [hstep]
  have hvslen : vs.length =
      (((quote_aware_split raw cd).1.zip (quote_aware_split raw cd).2).zip comps).length :=
    mapME_ok_length hmap
  have hkeys : ((comps.map Field.name).zip
      (vs ++ List.replicate
        (comps.length - (quote_aware_split raw cd).1.length) Value.null)).map Prod.fst =
      comps.map Field.name := by
    apply List.map_fst_zip
    simp only [List.length_append, List.length_map, List.length_replicate]
    rw [hvslen, List.length_zip, hziplen]
    omega
  simp only [except_map_ok]
  rw [dictInsertMany_nodup _ [] (by rw [hkeys]; exact hnd) (by simp)]
  rfl

theorem c4_struct_decoding_witness :
    parse_value "7".toList (.StructField "g" '^' [.SimpleField "x", .SimpleField "y"]) false =
      .ok (.record ([("x" : String), "y"].zip
        ([Value.str ['7']] ++ List.replicate
          (([Field.SimpleField "x", Field.SimpleField "y"] : List Field).length -
            (quote_aware_split "7".toList '^').1.length) Value.null))) := by
  have h := c4_struct_decoding.1 "g" '^' [.SimpleField "x", .SimpleField "y"]
    "7".toList [Value.str ['7']] (by simp) (by simp [Field.name]) (by decide) (by decide)
    (by rfl)
  exact h

/-! ## Claim C8 — empty document -/

/-- C8 (amended): a document with no lines at all — in particular the empty
string — fails with the bare base `CSVPPError`; the code defines no
`EmptyDocumentError` class. -/
theorem c8_empty_document :
    (∀ fieldSep, parse [] fieldSep = .error .csvppBase) ∧
    (∀ text fieldSep, split_csv_lines text = [] →
      parse text fieldSep = .error .csvppBase) := by
  constructor
  · intro _; rfl
  · intro text fieldSep h
    unfold parse
    rw [h]

/-- C8 counterexample: the empty document raises the bare base error, which
is not the `EmptyDocumentError` the spec names (no such class exists). -/
theorem c8_counterexample :
    parse [] [','] = .error .csvppBase ∧ Err.csvppBase ≠ Err.emptyDocumentError :=
  ⟨rfl, by decide⟩

theorem c8_empty_document_witness : parse [] [','] = .error .csvppBase :=
  c8_empty_document.2 [] [','] rfl

/-! ## Claim C7 — field-separator matching in rows -/

theorem pcrAux_no_split (sep : List Char) (hsep : 2 ≤ sep.length) :
    ∀ (n : Nat) (line current : List Char) (tq iq : Bool), line.length ≤ n →
      ((pcrAux sep line current tq iq).1).length = 1 := by
  intro n
  induction n with
  | zero =>
    intro line current tq iq hlen
    have h0 : line = [] := List.length_eq_zero.mp (Nat.le_zero.mp hlen)
    subst h0
    rfl
  | succ n ih =>
    intro line current tq iq hlen
    rw [pcrAux.eq_def]
    split
    · rfl
    · simp only [List.length_cons] at hlen
      exact ih _ _ _ _ (by omega)
    · simp only [List.length_cons] at hlen
      split
      · split
        · exact ih _ _ _ _ (by omega)
        · exact ih _ _ _ _ (by omega)
      · split
        · exact ih _ _ _ _ (by omega)
        · split
          · rename_i hch
            exfalso
            have hlen1 := congrArg List.length hch
            simp only [List.length_cons, List.length_nil] at hlen1
            omega
          · exact ih _ _ _ _ (by omega)

/-- C7 counterexample: with the two-character separator `"||"`, the data
row `a||b` is not split at all — the whole line remains a single cell. -/
theorem c7_counterexample :
    parse_csv_row "a||b".toList "||".toList = ([ "a||b".toList ], [false]) ∧
    "a||b".toList.length = 4 := ⟨rfl, rfl⟩

/-- C7 (amended): the field separator is configurable, but `_parse_csv_row`
compares the single character at the scan position with the whole separator
string (`ch == field_sep`); a single-character separator therefore splits
on each occurrence, while a separator of two or more characters never
matches, leaving every line as one cell. -/
theorem c7_field_separator :
    (∀ (line fieldSep : List Char), 2 ≤ fieldSep.length →
      ((parse_csv_row line fieldSep).1).length = 1) ∧
    parse_csv_row "a,b".toList [','] = ([['a'], ['b']], [false, false]) ∧
    parse_csv_row "a||b".toList ['|'] =
      ([['a'], [], ['b']], [false, false, false]) := by
  refine ⟨?_, rfl, rfl⟩
  intro line fieldSep hsep
  exact pcrAux_no_split fieldSep hsep line.length line [] false false (le_refl _)

theorem c7_field_separator_witness :
    ((parse_csv_row "x||y".toList "||".toList).1).length = 1 :=
  c7_field_separator.1 "x||y".toList "||".toList (by decide)

/-! ## Claim C9 — decoding is per-cell and schema-frame-preserving -/

theorem decodeRowF_cons (schema : Field) (rest : List Field)
    (cells : List (List Char × Bool)) (record : List (String × Value)) :
    decodeRowF (schema :: rest) cells record =
      match parse_value (cells.headD ([], false)).1 schema
          (cells.headD ([], false)).2 with
      | .error e => .error e
      | .ok v => decodeRowF rest (cells.drop 1)
          (dictInsert (Field.name schema) v record) := rfl

theorem padCells_nil_succ (n : Nat) :
    padCells [] (n + 1) = ([], false) :: padCells [] n := by
  simp [padCells, List.replicate_succ]

theorem padCells_cons (c : List Char × Bool) (ct : List (List Char × Bool)) (n : Nat) :
    padCells (c :: ct) (n + 1) = c :: padCells ct n := by
  simp [padCells, Nat.succ_sub_succ]

/-- C9: the row-decoding loop of `parse` equals one independent
`parse_value` call per column — each column's value depends only on its own
(padded) cell, quoted flag and schema — followed by the record assembly;
the schema list itself is threaded through unchanged (the embedding is
pure, mirroring that the Python decoder never writes to the `Field`
dataclasses). -/
theorem c9_decoding_independent :
    ∀ (schemas : List Field) (cells : List (List Char × Bool))
      (record : List (String × Value)),
      decodeRowF schemas cells record =
        (mapME (fun p => parse_value p.2.1 p.1 p.2.2)
          (schemas.zip (padCells cells schemas.length))).map
          (fun vs => dictInsertMany record ((schemas.map Field.name).zip vs)) := by
  intro schemas
  induction schemas with
  | nil => intro cells record; rfl
  | cons schema rest ih =>
    intro cells record
    obtain ⟨c, ct, hhead, hdrop, hpad⟩ :
        ∃ (c : List Char × Bool) (ct : List (List Char × Bool)),
          cells.headD ([], false) = c ∧ cells.drop 1 = ct ∧
          padCells cells (rest.length + 1) = c :: padCells ct rest.length := by
      cases cells with
      | nil => exact ⟨([], false), [], rfl, rfl, padCells_nil_succ rest.length⟩
      | cons c ct => exact ⟨c, ct, rfl, rfl, padCells_cons c ct rest.length⟩
    rw [decodeRowF_cons, hhead, hdrop, List.length_cons, hpad]
    simp only [List.zip_cons_cons, mapME, List.map_cons]
    cases hpv : parse_value c.1 schema c.2 with
    | error e => simp only [hpv]; rfl
    | ok v =>
      simp only [hpv]
      rw [ih ct (dictInsert (Field.name schema) v record)]
      simp only [List.zip] at *
      cases hmt : mapME (fun p => parse_value p.2.1 p.1 p.2.2)
          (List.zipWith Prod.mk rest (padCells ct rest.length)) with
      | error e => rfl
      | ok vt => rfl

/-! ## Claim C10 — duplicate names: last assignment wins -/

theorem dictLookup_dictInsert (k k' : String) (v : Value) :
    ∀ l, dictLookup k (dictInsert k' v l) =
      if k' = k then some v else dictLookup k l := by
  intro l
  induction l with
  | nil =>
    by_cases h : k' = k <;> simp [dictInsert, dictLookup, h]
  | cons p t ih =>
    obtain ⟨a, b⟩ := p
    by_cases hak : a = k'
    · subst hak
      simp only [dictInsert, if_pos rfl]
      by_cases hk : a = k
      · subst hk
        simp [dictLookup]
      · simp [dictLookup, hk]
    · simp only [dictInsert, if_neg hak]
      by_cases hk : a = k
      · subst hk
        have hne : ¬k' = a := fun hc => hak hc.symm
        simp [dictLookup, hne]
      · have hskip : dictLookup k ((a, b) :: dictInsert k' v t) =
            dictLookup k (dictInsert k' v t) := by
          simp [dictLookup, hk]
        rw [hskip, ih]
        by_cases hkk : k' = k
        · simp [hkk]
        · simp [hkk, dictLookup, hk]

theorem keys_dictInsert (k : String) (v : Value) :
    ∀ l : List (String × Value), (dictInsert k v l).map Prod.fst =
      if k ∈ l.map Prod.fst then l.map Prod.fst else l.map Prod.fst ++ [k] := by
  intro l
  induction l with
  | nil => simp [dictInsert]
  | cons p t ih =>
    obtain ⟨a, b⟩ := p
    by_cases hak : a = k
    · subst hak
      simp [dictInsert]
    · simp only [dictInsert, if_neg hak, List.map_cons, ih]
      by_cases hmem : k ∈ t.map Prod.fst
      · simp [hmem, hak, Ne.symm hak]
      · simp [hmem, hak, Ne.symm hak]

theorem countKey_not_mem (k : String) :
    ∀ l : List (String × Value), k ∉ l.map Prod.fst → countKey k l = 0 := by
  intro l
  induction l with
  | nil => intro _; rfl
  | cons p t ih =>
    intro h
    simp only [List.map_cons, List.mem_cons] at h
    push_neg at h
    have hpk : ¬(p.1 = k) := Ne.symm h.1
    have ht := ih h.2
    simp only [countKey] at ht ⊢
    simp [List.filter_cons, hpk, ht]

theorem countKey_nodup (k : String) :
    ∀ l : List (String × Value), (l.map Prod.fst).Nodup → k ∈ l.map Prod.fst →
      countKey k l = 1 := by
  intro l
  induction l with
  | nil => intro _ h; cases h
  | cons p t ih =>
    intro hnd hmem
    simp only [List.map_cons, List.nodup_cons] at hnd
    simp only [List.map_cons, List.mem_cons] at hmem
    by_cases hpk : p.1 = k
    · have h0 : countKey k t = 0 := countKey_not_mem k t (hpk ▸ hnd.1)
      simp only [countKey] at h0 ⊢
      simp [List.filter_cons, hpk, h0]
    · rcases hmem with hc | hmem
      · exact absurd hc.symm hpk
      · have ht := ih hnd.2 hmem
        simp only [countKey] at ht ⊢
        simp [List.filter_cons, hpk, ht]

theorem keys_nodup_dictInsert (k : String) (v : Value)
    (l : List (String × Value)) (h : (l.map Prod.fst).Nodup) :
    ((dictInsert k v l).map Prod.fst).Nodup := by
  rw [keys_dictInsert]
  by_cases hmem : k ∈ l.map Prod.fst
  · simpa [hmem]
  · simp only [hmem, if_false]
    simp [List.nodup_append, h, hmem]

theorem mem_keys_dictInsert (x k : String) (v : Value) (l : List (String × Value)) :
    x ∈ (dictInsert k v l).map Prod.fst ↔ x ∈ l.map Prod.fst ∨ x = k := by
  rw [keys_dictInsert]
  by_cases hmem : k ∈ l.map Prod.fst
  · simp only [hmem, if_true]
    constructor
    · exact Or.inl
    · rintro (h | rfl)
      · exact h
      · exact hmem
  · simp [hmem]

theorem keys_nodup_dictInsertMany :
    ∀ (ps acc : List (String × Value)), ((acc.map Prod.fst).Nodup) →
      ((dictInsertMany acc ps).map Prod.fst).Nodup := by
  intro ps
  induction ps with
  | nil => intro acc h; exact h
  | cons p pt ih =>
    intro acc h
    have hstep : dictInsertMany acc (p :: pt) =
        dictInsertMany (dictInsert p.1 p.2 acc) pt := rfl
    rw [hstep]
    exact ih _ (keys_nodup_dictInsert p.1 p.2 acc h)

theorem mem_keys_dictInsertMany (x : String) :
    ∀ (ps acc : List (String × Value)),
      (x ∈ (dictInsertMany acc ps).map Prod.fst ↔
        x ∈ acc.map Prod.fst ∨ x ∈ ps.map Prod.fst) := by
  intro ps
  induction ps with
  | nil => intro acc; simp [dictInsertMany]
  | cons p pt ih =>
    intro acc
    have hstep : dictInsertMany acc (p :: pt) =
        dictInsertMany (dictInsert p.1 p.2 acc) pt := rfl
    rw [hstep, ih]
    rw [mem_keys_dictInsert]
    simp only [List.map_cons, List.mem_cons]
    tauto

theorem dictInsertMany_append (acc ps qs : List (String × Value)) :
    dictInsertMany acc (ps ++ qs) = dictInsertMany (dictInsertMany acc ps) qs := by
  simp [dictInsertMany, List.foldl_append]

/-- Looking up a key in a record built by successive assignments returns
the value of the last assignment with that key. -/
theorem dictLookup_dictInsertMany_last (k : String) :
    ∀ ps : List (String × Value),
      dictLookup k (dictInsertMany [] ps) =
        ((ps.filter (fun p => p.1 = k)).getLast?).map Prod.snd := by
  intro ps
  induction ps using List.reverseRecOn with
  | nil => rfl
  | append_singleton ps p ih =>
    rw [dictInsertMany_append]
    have hsingle : dictInsertMany (dictInsertMany [] ps) [p] =
        dictInsert p.1 p.2 (dictInsertMany [] ps) := rfl
    rw [hsingle, dictLookup_dictInsert, List.filter_append]
    by_cases hk : p.1 = k
    · rw [if_pos hk]
      simp [List.filter_cons, hk]
    · rw [if_neg hk]
      simp [List.filter_cons, hk, ih]

/-- C10: when several assignments share a key — duplicate top-level header
names, or duplicate component names within one struct — the resulting
mapping has exactly one entry for that key, bound to the value of the last
assignment; earlier same-named columns are still decoded (and can still
fail) before being discarded. -/
theorem c10_duplicate_names_last_wins :
    (∀ (ps : List (String × Value)) (k : String),
      dictLookup k (dictInsertMany [] ps) =
        ((ps.filter (fun p => p.1 = k)).getLast?).map Prod.snd) ∧
    (∀ (ps : List (String × Value)) (k : String), k ∈ ps.map Prod.fst →
      countKey k (dictInsertMany [] ps) = 1) ∧
    parse "a,b,a\n1,2,3".toList [','] =
      .ok [[("a", .str ['3']), ("b", .str ['2'])]] ∧
    parse_value ['1', '^', '2']
        (.StructField "s" '^' [.SimpleField "x", .SimpleField "x"]) false =
      .ok (.record [("x", .str ['2'])]) ∧
    parse "a^(x),a\n\"v\",w".toList [','] = .error .invalidQuotingError := by
  refine ⟨fun ps k => dictLookup_dictInsertMany_last k ps, ?_, rfl, rfl, rfl⟩
  intro ps k hmem
  apply countKey_nodup
  · exact keys_nodup_dictInsertMany ps [] (by simp)
  · rw [mem_keys_dictInsertMany]
    exact Or.inr hmem

theorem c10_duplicate_names_last_wins_witness :
    countKey "a" (dictInsertMany []
      [("a", Value.str ['1']), ("a", Value.str ['2'])]) = 1 :=
  c10_duplicate_names_last_wins.2.1
    [("a", Value.str ['1']), ("a", Value.str ['2'])] "a" (by simp)

/-! ## Header parsing: helper lemmas -/

theorem list_all_congr {α : Type} {f g : α → Bool} :
    ∀ l : List α, (∀ x ∈ l, f x = g x) → l.all f = l.all g := by
  intro l
  induction l with
  | nil => intro _; rfl
  | cons a t ih =>
    intro h
    simp only [List.all_cons]
    rw [h a (List.mem_cons_self a t), ih (fun x hx => h x (List.mem_cons_of_mem _ hx))]

theorem takeWhile_append_stop {p : Char → Bool} :
    ∀ (nm : List Char) (x : Char) (rest : List Char),
      (∀ c ∈ nm, p c = true) → p x = false →
      (nm ++ x :: rest).takeWhile p = nm := by
  intro nm x rest hall hx
  induction nm with
  | nil => simp [List.takeWhile_cons, hx]
  | cons a t ih =>
    have ha : p a = true := hall a (List.mem_cons_self a t)
    simp only [List.cons_append, List.takeWhile_cons, ha, if_true]
    rw [ih (fun c hc => hall c (List.mem_cons_of_mem _ hc))]

/-- One-step unfolding of the header field parser. -/
theorem parseFieldFromF_succ (fuel : Nat) (s : List Char) (depth : Nat)
    (used : List Char) :
    parseFieldFromF (fuel + 1) s depth used =
      match parseNameAndArray s depth used with
      | .error e => .error e
      | .ok (name, arrayDelim?, rest2, pos2) =>
        match structHead rest2 with
        | none =>
          match arrayDelim? with
          | some d => .ok (.ArrayField name d (.SimpleField name), pos2)
          | none => .ok (.SimpleField name, pos2)
        | some (compDelim, skip) =>
          if compDelim ∈ used then .error .delimiterConflictError
          else if arrayDelim? = some compDelim then .error .delimiterConflictError
          else
            match scanParen (rest2.drop (skip + 1)) 1 with
            | none => .error .headerParseError
            | some n =>
              (mapME (fun raw =>
                  componentCheck (used ++ (match arrayDelim? with
                    | some a => [compDelim, a]
                    | none => [compDelim])) raw
                    (parseFieldFromF fuel raw (depth + 1)
                      (used ++ (match arrayDelim? with
                        | some a => [compDelim, a]
                        | none => [compDelim]))))
                  (bracketAwareSplit ((rest2.drop (skip + 1)).take (n - 1)) compDelim)).map
                (fun comps =>
                  let st := Field.StructField name compDelim comps
                  match arrayDelim? with
                  | some d => (Field.ArrayField name d st, pos2 + skip + 1 + n)
                  | none => (st, pos2 + skip + 1 + n)) := rfl

/-- `parseNameAndArray` on a valid name followed by `[]` at positive depth:
a nested array must specify an explicit delimiter. -/
theorem pna_empty_brackets_nested (nm : List Char) (rest : List Char) (depth : Nat)
    (used : List Char) (hne : nm ≠ []) (hall : ∀ c ∈ nm, isNameChar c = true)
    (hdepth : 0 < depth) :
    parseNameAndArray (nm ++ '[' :: ']' :: rest) depth used = .error .headerParseError := by
  have htw : (nm ++ '[' :: ']' :: rest).takeWhile isNameChar = nm :=
    takeWhile_append_stop nm '[' (']' :: rest) hall (by decide)
  have hnm : nm.isEmpty = false := by
    cases nm with
    | nil => exact absurd rfl hne
    | cons a t => rfl
  unfold parseNameAndArray
  rw [htw]
  simp only [hnm, Bool.false_eq_true, if_false, List.drop_left]
  simp [findChar, hdepth]

/-- `parseNameAndArray` on a valid name followed by `[]` at depth 0: the
array silently adopts the default delimiter `'~'`. -/
theorem pna_empty_brackets_top (nm : List Char) (rest : List Char)
    (used : List Char) (hne : nm ≠ []) (hall : ∀ c ∈ nm, isNameChar c = true)
    (hfresh : '~' ∉ used) :
    parseNameAndArray (nm ++ '[' :: ']' :: rest) 0 used =
      .ok (String.mk nm, some '~', rest, nm.length + 2) := by
  have htw : (nm ++ '[' :: ']' :: rest).takeWhile isNameChar = nm :=
    takeWhile_append_stop nm '[' (']' :: rest) hall (by decide)
  have hnm : nm.isEmpty = false := by
    cases nm with
    | nil => exact absurd rfl hne
    | cons a t => rfl
  unfold parseNameAndArray
  rw [htw]
  simp only [hnm, Bool.false_eq_true, if_false, List.drop_left]
  simp [findChar, hfresh]

/-- `parseNameAndArray` on a valid name with an explicit bracket delimiter
that is already in scope: `DelimiterConflictError`. -/
theorem pna_explicit_conflict (nm : List Char) (d : Char) (rest : List Char)
    (depth : Nat) (used : List Char) (hne : nm ≠ [])
    (hall : ∀ c ∈ nm, isNameChar c = true) (hd : d ≠ ']') (hmem : d ∈ used) :
    parseNameAndArray (nm ++ '[' :: d :: ']' :: rest) depth used =
      .error .delimiterConflictError := by
  have htw : (nm ++ '[' :: d :: ']' :: rest).takeWhile isNameChar = nm :=
    takeWhile_append_stop nm '[' (d :: ']' :: rest) hall (by decide)
  have hnm : nm.isEmpty = false := by
    cases nm with
    | nil => exact absurd rfl hne
    | cons a t => rfl
  unfold parseNameAndArray
  rw [htw]
  simp only [hnm, Bool.false_eq_true, if_false, List.drop_left]
  simp [findChar, hd, hmem]

/-- `parseNameAndArray` on a valid name with a fresh explicit bracket
delimiter: success, returning that delimiter. -/
theorem pna_explicit_ok (nm : List Char) (d : Char) (rest : List Char)
    (depth : Nat) (used : List Char) (hne : nm ≠ [])
    (hall : ∀ c ∈ nm, isNameChar c = true) (hd : d ≠ ']') (hmem : d ∉ used) :
    parseNameAndArray (nm ++ '[' :: d :: ']' :: rest) depth used =
      .ok (String.mk nm, some d, rest, nm.length + 3) := by
  have htw : (nm ++ '[' :: d :: ']' :: rest).takeWhile isNameChar = nm :=
    takeWhile_append_stop nm '[' (d :: ']' :: rest) hall (by decide)
  have hnm : nm.isEmpty = false := by
    cases nm with
    | nil => exact absurd rfl hne
    | cons a t => rfl
  unfold parseNameAndArray
  rw [htw]
  simp only [hnm, Bool.false_eq_true, if_false, List.drop_left]
  simp [findChar, hd, hmem]

/-! ## Claim C6 — empty array brackets and nesting depth -/

/-- C6: an array with empty brackets `[]` is rejected with
`HeaderParseError` at any nesting depth `> 0` (the error the spec calls
`HeaderSyntaxError`), as exercised by the full header `a^(b[])`; at depth 0
the header is legal and the array adopts the default delimiter `'~'`. -/
theorem c6_empty_brackets :
    (∀ (fuel : Nat) (nm rest : List Char) (depth : Nat) (used : List Char),
      nm ≠ [] → (∀ c ∈ nm, isNameChar c = true) → 0 < depth →
      parseFieldFromF (fuel + 1) (nm ++ '[' :: ']' :: rest) depth used =
        .error .headerParseError) ∧
    parse_field "a^(b[])".toList = .error .headerParseError ∧
    (∀ nm : List Char, nm ≠ [] → (∀ c ∈ nm, isNameChar c = true) →
      parse_field (nm ++ ['[', ']']) =
        .ok (.ArrayField (String.mk nm) '~' (.SimpleField (String.mk nm)))) := by
  refine ⟨?_, rfl, ?_⟩
  · intro fuel nm rest depth used hne hall hdepth
    rw [parseFieldFromF_succ,
      pna_empty_brackets_nested nm rest depth used hne hall hdepth]
  · intro nm hne hall
    unfold parse_field
    have hlen : (nm ++ ['[', ']']).length = nm.length + 2 := by simp
    rw [hlen, parseFieldFromF_succ,
      pna_empty_brackets_top nm [] [] hne hall (by simp)]
    simp [structHead]

theorem c6_empty_brackets_witness :
    parseFieldFromF 5 ("b".toList ++ '[' :: ']' :: []) 1 ['^'] =
      .error .headerParseError :=
  c6_empty_brackets.1 4 "b".toList [] 1 ['^'] (by simp) (by decide) (by decide)

/-! ## Claim C1 — delimiter conflicts along nesting paths -/

theorem pna_array_fresh {s : List Char} {depth : Nat} {used : List Char}
    {nm : String} {a : Char} {r2 : List Char} {p2 : Nat}
    (h : parseNameAndArray s depth used = .ok (nm, some a, r2, p2)) : a ∉ used := by
  simp only [parseNameAndArray] at h
  split at h
  · cases h
  · split at h
    · split at h
      · cases h
      · split at h
        · cases h
        · split at h
          · cases h
          · rename_i hnotmem
            cases h
            exact hnotmem
    · simp at h

theorem componentCheck_ok_inv {used raw : List Char} {r : Except Err (Field × Nat)}
    {f : Field} (h : componentCheck used raw r = .ok f) :
    ∃ consumed, r = .ok (f, consumed) := by
  unfold componentCheck at h
  split at h
  · cases h
  · split at h
    · cases h
    · rename_i f' consumed
      split at h
      · cases h
        exact ⟨consumed, rfl⟩
      · split at h
        · split at h
          · cases h
          · cases h
        · cases h

theorem pathsOkF_congr :
    ∀ (g : Nat) (u v : List Char) (f : Field), (∀ x, x ∈ u ↔ x ∈ v) →
      pathsOkF g u f = pathsOkF g v f := by
  intro g
  induction g with
  | zero => intro u v f _; rfl
  | succ g ih =>
    intro u v f hequiv
    cases f with
    | SimpleField nm => rfl
    | ArrayField nm d et =>
      by_cases hd : d ∈ u
      · have hdv : d ∈ v := (hequiv d).mp hd
        simp [pathsOkF, hd, hdv]
      · have hdv : d ∉ v := fun hc => hd ((hequiv d).mpr hc)
        simp only [pathsOkF, if_neg hd, if_neg hdv]
        exact ih (d :: u) (d :: v) et (fun x => by simp [hequiv x])
    | StructField nm cd comps =>
      by_cases hcd : cd ∈ u
      · have hdv : cd ∈ v := (hequiv cd).mp hcd
        simp [pathsOkF, hcd, hdv]
      · have hdv : cd ∉ v := fun hc => hcd ((hequiv cd).mpr hc)
        simp only [pathsOkF, if_neg hcd, if_neg hdv]
        exact list_all_congr comps
          (fun c _ => ih (cd :: u) (cd :: v) c (fun x => by simp [hequiv x]))

/-- Success of the header parser implies the delimiter-scoping discipline:
every delimiter chosen in the resulting schema is fresh with respect to all
delimiters in scope at its level. -/
theorem parseFieldFromF_pathsOk :
    ∀ (fuel : Nat) (s : List Char) (depth : Nat) (used : List Char)
      (f : Field) (npos : Nat),
      parseFieldFromF fuel s depth used = .ok (f, npos) →
      ∀ g, pathsOkF g used f = true := by
  intro fuel
  induction fuel with
  | zero => intro s depth used f npos h g; cases h
  | succ fuel ih =>
    intro s depth used f npos h g
    rw [parseFieldFromF_succ] at h
    cases hpna : parseNameAndArray s depth used with
    | error e => rw [hpna] at h; cases h
    | ok res =>
      obtain ⟨nm, adOpt, r2, p2⟩ := res
      simp only [hpna] at h
      cases hsh : structHead r2 with
      | none =>
        simp only [hsh] at h
        cases adOpt with
        | none =>
          cases h
          cases g with
          | zero => rfl
          | succ g' => rfl
        | some d =>
          cases h
          have hd : d ∉ used := pna_array_fresh hpna
          cases g with
          | zero => rfl
          | succ g' =>
            simp only [pathsOkF, if_neg hd]
            cases g' with
            | zero => rfl
            | succ g'' => rfl
      | some cs =>
        obtain ⟨cd, skip⟩ := cs
        simp only [hsh] at h
        by_cases hcdu : cd ∈ used
        · rw [if_pos hcdu] at h; cases h
        rw [if_neg hcdu] at h
        by_cases hcda : adOpt = some cd
        · rw [if_pos hcda] at h; cases h
        rw [if_neg hcda] at h
        cases adOpt with
        | none =>
          cases hsp : scanParen (r2.drop (skip + 1)) 1 with
          | none => simp only [hsp] at h; cases h
          | some n =>
            simp only [hsp] at h
            cases hcomps : mapME (fun raw =>
                componentCheck (used ++ [cd]) raw
                  (parseFieldFromF fuel raw (depth + 1) (used ++ [cd])))
                (bracketAwareSplit ((r2.drop (skip + 1)).take (n - 1)) cd) with
            | error e => simp only [hcomps, except_map_error] at h; cases h
            | ok comps =>
              simp only [hcomps, except_map_ok] at h
              have hcomp_ok : ∀ c ∈ comps, ∀ g',
                  pathsOkF g' (used ++ [cd]) c = true := by
                intro c hc g'
                obtain ⟨raw, _, hcc⟩ := mapME_ok_mem hcomps c hc
                obtain ⟨consumed, hrec⟩ := componentCheck_ok_inv hcc
                exact ih raw (depth + 1) _ c consumed hrec g'
              cases h
              cases g with
              | zero => rfl
              | succ g' =>
                simp only [pathsOkF, if_neg hcdu]
                rw [List.all_eq_true]
                intro c hc
                rw [pathsOkF_congr g' (cd :: used) (used ++ [cd]) c
                  (fun x => by simp [Or.comm])]
                exact hcomp_ok c hc g'
        | some a =>
          cases hsp : scanParen (r2.drop (skip + 1)) 1 with
          | none => simp only [hsp] at h; cases h
          | some n =>
            simp only [hsp] at h
            cases hcomps : mapME (fun raw =>
                componentCheck (used ++ [cd, a]) raw
                  (parseFieldFromF fuel raw (depth + 1) (used ++ [cd, a])))
                (bracketAwareSplit ((r2.drop (skip + 1)).take (n - 1)) cd) with
            | error e => simp only [hcomps, except_map_error] at h; cases h
            | ok comps =>
              simp only [hcomps, except_map_ok] at h
              have hcomp_ok : ∀ c ∈ comps, ∀ g',
                  pathsOkF g' (used ++ [cd, a]) c = true := by
                intro c hc g'
                obtain ⟨raw, _, hcc⟩ := mapME_ok_mem hcomps c hc
                obtain ⟨consumed, hrec⟩ := componentCheck_ok_inv hcc
                exact ih raw (depth + 1) _ c consumed hrec g'
              cases h
              have ha : a ∉ used := pna_array_fresh hpna
              have hacd : ¬cd = a := fun hc => hcda (by rw [hc])
              cases g with
              | zero => rfl
              | succ g' =>
                simp only [pathsOkF, if_neg ha]
                cases g' with
                | zero => rfl
                | succ g'' =>
                  have hcd2 : cd ∉ a :: used := by
                    intro hc
                    rcases List.mem_cons.mp hc with hc1 | hc2
                    · exact hacd hc1
                    · exact hcdu hc2
                  simp only [pathsOkF, if_neg hcd2]
                  rw [List.all_eq_true]
                  intro c hc
                  rw [pathsOkF_congr g'' (cd :: a :: used) (used ++ [cd, a]) c
                    (fun x => by simp; tauto)]
                  exact hcomp_ok c hc g''

/-- C1: the parser enforces delimiter uniqueness along every nesting path —
any successfully parsed header satisfies the scoping discipline at every
depth budget; an array delimiter already in scope, and a component
delimiter equal to the field's own array delimiter, are rejected with
`DelimiterConflictError`; the canonical reuse example
`address[~]^(street~city)` fails with `DelimiterConflictError`. -/
theorem c1_delimiter_conflicts :
    (∀ (fuel : Nat) (s : List Char) (depth : Nat) (used : List Char)
      (f : Field) (npos : Nat),
      parseFieldFromF fuel s depth used = .ok (f, npos) →
      ∀ g, pathsOkF g used f = true) ∧
    (∀ (fuel : Nat) (nm : List Char) (d : Char) (rest : List Char) (depth : Nat)
      (used : List Char), nm ≠ [] → (∀ c ∈ nm, isNameChar c = true) →
      d ≠ ']' → d ∈ used →
      parseFieldFromF (fuel + 1) (nm ++ '[' :: d :: ']' :: rest) depth used =
        .error .delimiterConflictError) ∧
    (∀ (fuel : Nat) (nm : List Char) (d : Char) (rest : List Char) (depth : Nat)
      (used : List Char), nm ≠ [] → (∀ c ∈ nm, isNameChar c = true) →
      d ≠ ']' → d ≠ '(' → d ∉ used →
      parseFieldFromF (fuel + 1) (nm ++ '[' :: d :: ']' :: d :: '(' :: rest)
        depth used = .error .delimiterConflictError) ∧
    parse_field "address[~]^(street~city)".toList = .error .delimiterConflictError := by
  refine ⟨parseFieldFromF_pathsOk, ?_, ?_, rfl⟩
  · intro fuel nm d rest depth used hne hall hd hmem
    rw [parseFieldFromF_succ,
      pna_explicit_conflict nm d rest depth used hne hall hd hmem]
  · intro fuel nm d rest depth used hne hall hd hdp hmem
    rw [parseFieldFromF_succ,
      pna_explicit_ok nm d (d :: '(' :: rest) depth used hne hall hd hmem]
    have hsh : structHead (d :: '(' :: rest) = some (d, 1) := by
      simp [structHead, hdp]
    simp only [hsh]
    rw [if_neg hmem]
    simp

theorem c1_delimiter_conflicts_witness :
    parseFieldFromF 7 ("p".toList ++ '[' :: '~' :: ']' :: '~' :: '(' :: []) 0 [] =
      .error .delimiterConflictError :=
  c1_delimiter_conflicts.2.2.1 6 "p".toList '~' [] 0 [] (by simp) (by decide)
    (by decide) (by decide) (by decide)

end Csvpp
